import Mathlib

/-!
Verification of the `rbe` byte-pair-encoding tokenizer (Rust).

Shallow embedding conventions:
* Rust `u32` symbol IDs become `Nat` (training assigns `256 + i` with
  `i < vocab_size - 256 ≤ 2^32 - 256`, so no wrap-around is reachable and
  plain `Nat` arithmetic is faithful).
* A Rust `&str` is represented by its UTF-8 byte sequence (`List Nat`,
  every element `< 256`); `text.as_bytes()` is then the identity.
* A Rust `HashMap` is represented by its contents as an association list.
  Lookup and insert (`ainsert` replaces the value of an existing key, like
  `HashMap::insert`) do not depend on the list order.  Operations of the
  source that *iterate* over a `HashMap` (whose iteration order is
  arbitrary and randomized per process) are parameterized by the
  enumeration order, made an explicit argument.
-/

namespace RBE

/-- Association-list lookup: first entry whose key matches.  Models
`HashMap::get` (keys are unique in every map the code builds, so "first
match" is exact). -/
def alookup {α β : Type} [DecidableEq α] : List (α × β) → α → Option β
  | [], _ => none
  | (k, v) :: rest, a => if k = a then some v else alookup rest a

/-- Association-list insert: replaces the value of an existing key,
otherwise appends.  Models `HashMap::insert`. -/
def ainsert {α β : Type} [DecidableEq α] : List (α × β) → α → β → List (α × β)
  | [], a, b => [(a, b)]
  | (k, v) :: rest, a, b =>
      if k = a then (k, b) :: rest else (k, v) :: ainsert rest a b

/-- The tokenizer state of `tokenizers/basic.rs`: `merges` is the
pair-to-new-ID table (association list, in insertion order), `vocab` maps
symbol IDs to byte sequences.  The `pattern` string field is irrelevant to
every claim (it only flows into the first line of the `.model` file) and
is omitted. -/
structure Tokenizer where
  merges : List ((Nat × Nat) × Nat)
  vocab : List (Nat × List Nat)
deriving DecidableEq

/-- The initial vocabulary: IDs 0–255 map to the corresponding single
byte (`(0..256).map(|idx| (idx, vec![idx as u8]))`). -/
def initVocab : List (Nat × List Nat) :=
  (List.range 256).map (fun b => (b, [b]))

/-- `Tokenizer::new()`: empty merge table, 256 singleton byte entries. -/
def Tokenizer.new : Tokenizer :=
  { merges := [], vocab := initVocab }

/-- Adjacent pairs of a symbol sequence (`ids.windows(2)`). -/
def pairsOf (ids : List Nat) : List (Nat × Nat) :=
  ids.zip ids.tail

/-- `*counts.entry(pair).or_insert(0) += c`: add `c` to the count of
`pair`, inserting the entry if absent. -/
def bumpBy (stats : List ((Nat × Nat) × Nat)) (p : Nat × Nat) (c : Nat) :
    List ((Nat × Nat) × Nat) :=
  match stats with
  | [] => [(p, c)]
  | (q, n) :: rest =>
      if q = p then (q, n + c) :: rest else (q, n) :: bumpBy rest p c

/-- `util::get_stats`: count every adjacent pair of the sequence.  The
entries are listed in first-occurrence order (one concrete enumeration of
the `HashMap`'s contents). -/
def getStats (ids : List Nat) : List ((Nat × Nat) × Nat) :=
  (pairsOf ids).foldl (fun s p => bumpBy s p 1) []

/-- `util::merge`: replace every non-overlapping left-to-right occurrence
of `pair` by `idx`; after a match at position `i` scanning resumes at
`i + 2` (the recursive call drops both matched elements). -/
def mergeList (pair : Nat × Nat) (idx : Nat) : List Nat → List Nat
  | a :: b :: rest =>
      if a = pair.1 ∧ b = pair.2 then idx :: mergeList pair idx rest
      else a :: mergeList pair idx (b :: rest)
  | l => l

/-- `Iterator::min_by_key`: first element with the minimal key (Rust
documents that on ties the first element wins). -/
def minByKey {α : Type} (f : α → Nat) : List α → Option α
  | [] => none
  | a :: l => some (l.foldl (fun best x => if f x < f best then x else best) a)

/-- `Iterator::max_by_key`: last element with the maximal key (Rust
documents that on ties the last element wins). -/
def maxByKey {α : Type} (f : α → Nat) : List α → Option α
  | [] => none
  | a :: l => some (l.foldl (fun best x => if f best ≤ f x then x else best) a)

/-- `Tokenizer::find_most_frequent_pair`: `stats.iter().max_by_key(count)`.
The argument is the statistics in some enumeration order. -/
def findMostFrequentPair (stats : List ((Nat × Nat) × Nat)) :
    Option (Nat × Nat) :=
  (maxByKey (fun e => e.2) stats).map (fun e => e.1)

/-- `u32::MAX`, the sentinel key `unwrap_or` supplies for pairs absent
from the merge table during encoding. -/
def UMAX : Nat := 4294967295

/-- One iteration of the `while` loop of `Tokenizer::encode`: pick the
stats entry minimizing `merges.get(pair).unwrap_or(u32::MAX)`; if that
pair is in the merge table, apply the merge (`some` of the new sequence),
otherwise the loop breaks (`none`). -/
def encodeStep (m : List ((Nat × Nat) × Nat)) (ids : List Nat) :
    Option (List Nat) :=
  match minByKey (fun e => (alookup m e.1).getD UMAX) (getStats ids) with
  | some e =>
      match alookup m e.1 with
      | some idx => some (mergeList e.1 idx ids)
      | none => none
  | none => none

/-- The `while ids.len() >= 2` loop of `Tokenizer::encode`, with explicit
fuel.  Each applied merge strictly shortens the sequence, so fuel equal to
the initial length is always sufficient (proved below). -/
def encodeLoop (m : List ((Nat × Nat) × Nat)) : Nat → List Nat → List Nat
  | 0, ids => ids
  | fuel + 1, ids =>
      if ids.length < 2 then ids
      else
        match encodeStep m ids with
        | some ids2 => encodeLoop m fuel ids2
        | none => ids

/-- `Tokenizer::encode` on the byte sequence of the input text. -/
def encodeBasic (st : Tokenizer) (text : List Nat) : List Nat :=
  encodeLoop st.merges text.length text

/-- The byte sequence assembled by `Tokenizer::decode` before UTF-8
validation: look every ID up in the vocabulary, silently skipping absent
IDs (`filter_map`), and concatenate (`flat_map`). -/
def decodeBytes (st : Tokenizer) (ids : List Nat) : List Nat :=
  (ids.filterMap (fun id => alookup st.vocab id)).flatten

/-- Strict UTF-8 validity of a byte sequence, as checked by Rust's
`String::from_utf8` (rejects overlong forms, surrogates, and code points
above `0x10FFFF`). -/
def validUtf8 : List Nat → Bool
  | [] => true
  | b :: rest =>
      if b < 128 then validUtf8 rest
      else if 194 ≤ b ∧ b ≤ 223 then
        match rest with
        | c1 :: r => if 128 ≤ c1 ∧ c1 ≤ 191 then validUtf8 r else false
        | [] => false
      else if b = 224 then
        match rest with
        | c1 :: c2 :: r =>
            if (160 ≤ c1 ∧ c1 ≤ 191) ∧ (128 ≤ c2 ∧ c2 ≤ 191) then validUtf8 r
            else false
        | _ => false
      else if (225 ≤ b ∧ b ≤ 236) ∨ b = 238 ∨ b = 239 then
        match rest with
        | c1 :: c2 :: r =>
            if (128 ≤ c1 ∧ c1 ≤ 191) ∧ (128 ≤ c2 ∧ c2 ≤ 191) then validUtf8 r
            else false
        | _ => false
      else if b = 237 then
        match rest with
        | c1 :: c2 :: r =>
            if (128 ≤ c1 ∧ c1 ≤ 159) ∧ (128 ≤ c2 ∧ c2 ≤ 191) then validUtf8 r
            else false
        | _ => false
      else if b = 240 then
        match rest with
        | c1 :: c2 :: c3 :: r =>
            if (144 ≤ c1 ∧ c1 ≤ 191) ∧ (128 ≤ c2 ∧ c2 ≤ 191) ∧
                (128 ≤ c3 ∧ c3 ≤ 191) then validUtf8 r
            else false
        | _ => false
      else if 241 ≤ b ∧ b ≤ 243 then
        match rest with
        | c1 :: c2 :: c3 :: r =>
            if (128 ≤ c1 ∧ c1 ≤ 191) ∧ (128 ≤ c2 ∧ c2 ≤ 191) ∧
                (128 ≤ c3 ∧ c3 ≤ 191) then validUtf8 r
            else false
        | _ => false
      else if b = 244 then
        match rest with
        | c1 :: c2 :: c3 :: r =>
            if (128 ≤ c1 ∧ c1 ≤ 143) ∧ (128 ≤ c2 ∧ c2 ≤ 191) ∧
                (128 ≤ c3 ∧ c3 ≤ 191) then validUtf8 r
            else false
        | _ => false
      else false

/-- The result of `Tokenizer::decode`, a `String` in the source: either
the requested text (represented by its bytes) or the
`"Error decoding text: {:?}"` diagnostic produced when
`String::from_utf8` fails. -/
inductive DecodeOutcome where
  | text (bs : List Nat)
  | diagnostic (msg : String)
deriving DecidableEq

/-- `Tokenizer::decode`: assemble the bytes, then
`String::from_utf8(..).unwrap_or_else(|e| format!("Error decoding text: {:?}", e))`. -/
def decodeT (st : Tokenizer) (ids : List Nat) : DecodeOutcome :=
  let bs := decodeBytes st ids
  if validUtf8 bs then .text bs else .diagnostic "Error decoding text"

/-- The byte sequence looked up for one operand during training's
incremental vocabulary extension.  `basic.rs` indexes `self.vocab[&id]`
(which panics on a missing key — unreachable during training, where every
operand already has an entry); `regex.rs` writes
`self.tokenizer.vocab.get(&id).unwrap_or(&vec![])`.  Both are modelled by
defaulting to the empty byte sequence. -/
def vget (st : Tokenizer) (id : Nat) : List Nat :=
  (alookup st.vocab id).getD []

/-- The body of one `Tokenizer::train` loop iteration once a most-frequent
pair has been selected: assign `idx = 256 + i`, rewrite the sequence,
record the merge, extend the vocabulary with the concatenation of the two
operands' byte sequences. -/
def trainInsert (st : Tokenizer) (pair : Nat × Nat) (idx : Nat) : Tokenizer :=
  { merges := ainsert st.merges pair idx,
    vocab := ainsert st.vocab idx (vget st pair.1 ++ vget st pair.2) }

/-- The `for i in 0..num_merges` loop of `Tokenizer::train` (basic).
`ord` is the arbitrary `HashMap` iteration order of the statistics,
supplied as an explicit reordering applied before pair selection
(`ord = id` is one legal order).  When no pair exists (sequence shorter
than 2) the iteration does nothing and the loop continues. -/
def trainBasicGo (ord : List ((Nat × Nat) × Nat) → List ((Nat × Nat) × Nat)) :
    Nat → Nat → List Nat → Tokenizer → Tokenizer
  | 0, _, _, st => st
  | fuel + 1, i, ids, st =>
      match findMostFrequentPair (ord (getStats ids)) with
      | some pair =>
          trainBasicGo ord fuel (i + 1) (mergeList pair (256 + i) ids)
            (trainInsert st pair (256 + i))
      | none => trainBasicGo ord fuel (i + 1) ids st

/-- `Tokenizer::train` (basic): `assert!(vocab_size >= 256)` is the
caller's precondition; the loop runs `vocab_size - 256` times over the raw
byte sequence of the text. -/
def trainBasic (ord : List ((Nat × Nat) × Nat) → List ((Nat × Nat) × Nat))
    (st : Tokenizer) (text : List Nat) (vocabSize : Nat) : Tokenizer :=
  trainBasicGo ord (vocabSize - 256) 0 text st

/-- The combined statistics of `RegexTokenizer::train`: per-chunk
`get_stats`, summed additively into one map. -/
def getStatsChunks (chunks : List (List Nat)) : List ((Nat × Nat) × Nat) :=
  chunks.foldl (fun stats c => (getStats c).foldl (fun s e => bumpBy s e.1 e.2) stats) []

/-- The `for i in 0..num_merges` loop of `RegexTokenizer::train`: combined
statistics over all chunks, the same pair selection, the merge applied to
every chunk; on `None` the loop breaks. -/
def trainRegexGo (ord : List ((Nat × Nat) × Nat) → List ((Nat × Nat) × Nat)) :
    Nat → Nat → List (List Nat) → Tokenizer → Tokenizer
  | 0, _, _, st => st
  | fuel + 1, i, idss, st =>
      match findMostFrequentPair (ord (getStatsChunks idss)) with
      | some pair =>
          trainRegexGo ord fuel (i + 1)
            (idss.map (fun c => mergeList pair (256 + i) c))
            (trainInsert st pair (256 + i))
      | none => st

/-- `RegexTokenizer::train` on an already-split chunk list (the regex
split itself is performed by the external `regex` crate; chunks are the
byte sequences of the pattern's matches, whose concatenation is the whole
text). -/
def trainRegex (ord : List ((Nat × Nat) × Nat) → List ((Nat × Nat) × Nat))
    (st : Tokenizer) (chunks : List (List Nat)) (vocabSize : Nat) : Tokenizer :=
  trainRegexGo ord (vocabSize - 256) 0 chunks st

/-- The `while i + 1 < chunk_ids.len()` scan of
`RegexTokenizer::encode_chunk`, with explicit fuel.  `acc` holds the
elements already passed (positions before `i`); the last argument is the
remaining suffix starting at position `i`.  On a merge the position is
re-examined (`i` unchanged); otherwise `i` advances.  Every iteration
shortens the suffix by exactly one element, so fuel equal to the chunk
length is always sufficient and reproduces the `while` loop exactly. -/
def encodeChunkGo (m : List ((Nat × Nat) × Nat)) :
    Nat → List Nat → List Nat → List Nat
  | 0, acc, l => acc ++ l
  | fuel + 1, acc, a :: b :: rest =>
      (match alookup m (a, b) with
      | some idx => encodeChunkGo m fuel acc (idx :: rest)
      | none => encodeChunkGo m fuel (acc ++ [a]) (b :: rest))
  | _ + 1, acc, l => acc ++ l

/-- `RegexTokenizer::encode_chunk` on a chunk's byte sequence. -/
def encodeChunk (m : List ((Nat × Nat) × Nat)) (chunk : List Nat) : List Nat :=
  encodeChunkGo m chunk.length [] chunk

/-- `RegexTokenizer::encode` on an already-split chunk list: encode each
chunk and `extend` the result vector in chunk order. -/
def regexEncode (m : List ((Nat × Nat) × Nat)) (chunks : List (List Nat)) :
    List Nat :=
  chunks.foldl (fun ids c => ids ++ encodeChunk m c) []

/-- The merge lines `Tokenizer::save` writes to the `.model` file:
`for (&(idx1, idx2), &idx) in &self.merges` iterates the `HashMap` in an
arbitrary order; `enumOrder` is that enumeration (some permutation of the
table's entries).  Only the operand pair is written; the recorded new ID
is discarded. -/
def saveModelPairs (enumOrder : List ((Nat × Nat) × Nat)) : List (Nat × Nat) :=
  enumOrder.map (fun e => e.1)

/-- The line-reading loop of `Tokenizer::load`: each well-formed line
(two parseable integers; malformed lines are skipped and never reach this
fold) inserts the pair with the next sequential ID, starting at 256. -/
def loadMergesGo : List ((Nat × Nat) × Nat) → Nat → List (Nat × Nat) →
    List ((Nat × Nat) × Nat)
  | acc, _, [] => acc
  | acc, idx, p :: rest => loadMergesGo (ainsert acc p idx) (idx + 1) rest

/-- The merge table `Tokenizer::load` reconstructs from the merge lines of
a `.model` file. -/
def loadMerges (lines : List (Nat × Nat)) : List ((Nat × Nat) × Nat) :=
  loadMergesGo [] 256 lines

/-- The key loop of `Tokenizer::build_vocab`: `for (idx1, idx2) in
self.merges.keys()` iterates the `HashMap` in an arbitrary order
(`keysInOrder`); when both operands are already present the concatenation
is stored under `next_idx` (which then increments), otherwise the entry is
silently skipped (and `next_idx` does not increment).  The stored merge
IDs are never consulted. -/
def buildVocabGo : List (Nat × List Nat) → Nat → List (Nat × Nat) →
    List (Nat × List Nat)
  | vocab, _, [] => vocab
  | vocab, next, (a, b) :: rest =>
      match alookup vocab a, alookup vocab b with
      | some t1, some t2 => buildVocabGo (ainsert vocab next (t1 ++ t2)) (next + 1) rest
      | _, _ => buildVocabGo vocab next rest

/-- `Tokenizer::build_vocab`, parameterized by the `HashMap` key
iteration order. -/
def buildVocab (keysInOrder : List (Nat × Nat)) : List (Nat × List Nat) :=
  buildVocabGo initVocab 256 keysInOrder

/-- Modelled from the spec (§4.5 / §4.7): the chunk-local variant of the
priority-merge procedure — "repeatedly find, within the chunk, the
merge-table pair with the smallest assigned ID among pairs present, and
apply it, until none remain".  This is §4.5's loop run on the chunk's
bytes, stated here to compare the spec's description of
`RegexTokenizer::encode_chunk` with the source's actual scan. -/
def specPriorityEncodeChunk (m : List ((Nat × Nat) × Nat)) (chunk : List Nat) :
    List Nat :=
  encodeLoop m chunk.length chunk

/-- The bytes a single symbol decodes to, with absent vocabulary entries
contributing nothing. -/
def decM (st : Tokenizer) (l : List Nat) : List Nat :=
  (l.map (vget st)).flatten

/-- The decode-consistency invariant of a tokenizer state: every byte ID
decodes to itself, and every recorded merge's new ID decodes to the
concatenation of its operands' decodings.  It holds for the fresh state
and for every state produced by one training run on a fresh state. -/
def WfT (st : Tokenizer) : Prop :=
  (∀ b, b < 256 → alookup st.vocab b = some [b]) ∧
  (∀ p idx, alookup st.merges p = some idx →
    vget st idx = vget st p.1 ++ vget st p.2)

/-- `ord` is a legal enumeration of a `HashMap`'s contents: a permutation
of the entry list. -/
def IsEnum (ord : List ((Nat × Nat) × Nat) → List ((Nat × Nat) × Nat)) : Prop :=
  ∀ l, List.Perm (ord l) l

/-- The states of the claim "untrained (empty merge table) or produced by
training", with training read as one training run on a fresh instance:
`Tokenizer::new()`, or the result of one `train` call (basic or regex
variant) on `Tokenizer::new()`.  The byte bounds record that Rust training
text is UTF-8, hence all input symbols are `< 256`. -/
def ReachedOnce (st : Tokenizer) : Prop :=
  st = Tokenizer.new ∨
  (∃ ord text V, IsEnum ord ∧ (∀ b ∈ text, b < 256) ∧
    st = trainBasic ord Tokenizer.new text V) ∨
  (∃ ord chunks V, IsEnum ord ∧ (∀ c ∈ chunks, ∀ b ∈ c, b < 256) ∧
    st = trainRegex ord Tokenizer.new chunks V)

/-- Invariant carried through one basic training run: all sequence
symbols and recorded IDs are below `256 + i`, bytes decode to themselves,
and recorded merges decode consistently. -/
def TrainInvP (i : Nat) (ids : List Nat) (st : Tokenizer) : Prop :=
  (∀ s ∈ ids, s < 256 + i) ∧
  (∀ b, b < 256 → alookup st.vocab b = some [b]) ∧
  (∀ p v, alookup st.merges p = some v →
    p.1 < 256 + i ∧ p.2 < 256 + i ∧ v < 256 + i ∧
    vget st v = vget st p.1 ++ vget st p.2)

/-- Invariant carried through one regex training run (per-chunk symbol
bound, otherwise as `TrainInvP`). -/
def TrainInvR (i : Nat) (idss : List (List Nat)) (st : Tokenizer) : Prop :=
  (∀ c ∈ idss, ∀ s ∈ c, s < 256 + i) ∧
  (∀ b, b < 256 → alookup st.vocab b = some [b]) ∧
  (∀ p v, alookup st.merges p = some v →
    p.1 < 256 + i ∧ p.2 < 256 + i ∧ v < 256 + i ∧
    vget st v = vget st p.1 ++ vget st p.2)

/-- Invariant for the ID-assignment schema of one basic training run from
a fresh instance: symbols and merge-key components are below `256 + i`,
no recorded pair is still adjacent in the sequence, and the recorded IDs
are exactly `256, 257, …` in insertion order. -/
def RunInvP (i : Nat) (ids : List Nat) (st : Tokenizer) : Prop :=
  (∀ s ∈ ids, s < 256 + i) ∧
  (∀ p v, alookup st.merges p = some v → p.1 < 256 + i ∧ p.2 < 256 + i) ∧
  (∀ q ∈ st.merges.map (fun e => e.1), q ∉ pairsOf ids) ∧
  st.merges.map (fun e => e.2) = List.range' 256 st.merges.length ∧
  st.merges.length = i

/-- The regex-mode analogue of `RunInvP`. -/
def RunInvR (i : Nat) (idss : List (List Nat)) (st : Tokenizer) : Prop :=
  (∀ c ∈ idss, ∀ s ∈ c, s < 256 + i) ∧
  (∀ p v, alookup st.merges p = some v → p.1 < 256 + i ∧ p.2 < 256 + i) ∧
  (∀ q ∈ st.merges.map (fun e => e.1), ∀ c ∈ idss, q ∉ pairsOf c) ∧
  st.merges.map (fun e => e.2) = List.range' 256 st.merges.length ∧
  st.merges.length = i

/-! ### Association-list lemmas -/

theorem alookup_ainsert_self {α β : Type} [DecidableEq α]
    (l : List (α × β)) (k : α) (v : β) : alookup (ainsert l k v) k = some v := by
  induction l with
  | nil => simp [ainsert, alookup]
  | cons e rest ih =>
      obtain ⟨k', v'⟩ := e
      by_cases h : k' = k
      · subst h; simp [ainsert, alookup]
      · simp [ainsert, alookup, h, ih]

theorem alookup_ainsert_ne {α β : Type} [DecidableEq α]
    (l : List (α × β)) (k a : α) (v : β) (h : a ≠ k) :
    alookup (ainsert l k v) a = alookup l a := by
  induction l with
  | nil =>
      have hka : ¬ (k = a) := fun hh => h hh.symm
      simp [ainsert, alookup, hka]
  | cons e rest ih =>
      obtain ⟨k', v'⟩ := e
      by_cases hk : k' = k
      · subst hk
        have hka : ¬ (k' = a) := fun hh => h hh.symm
        simp [ainsert, alookup, hka]
      · simp [ainsert, hk, alookup, ih]

theorem alookup_eq_none_iff {α β : Type} [DecidableEq α]
    (l : List (α × β)) (a : α) :
    alookup l a = none ↔ a ∉ l.map (fun e => e.1) := by
  induction l with
  | nil => simp [alookup]
  | cons e rest ih =>
      obtain ⟨k', v'⟩ := e
      by_cases h : k' = a
      · subst h; simp [alookup]
      · have hak : ¬ (a = k') := fun hh => h hh.symm
        simp [alookup, h, ih, hak]

theorem ainsert_of_none {α β : Type} [DecidableEq α]
    (l : List (α × β)) (k : α) (v : β) (h : alookup l k = none) :
    ainsert l k v = l ++ [(k, v)] := by
  induction l with
  | nil => simp [ainsert]
  | cons e rest ih =>
      obtain ⟨k', v'⟩ := e
      by_cases hk : k' = k
      · simp [alookup, hk] at h
      · simp [alookup, hk] at h
        simp [ainsert, hk, ih h]

/-! ### Adjacent-pair lemmas -/

theorem pairsOf_nil : pairsOf [] = [] := rfl

theorem pairsOf_single (a : Nat) : pairsOf [a] = [] := rfl

theorem pairsOf_cons₂ (a b : Nat) (t : List Nat) :
    pairsOf (a :: b :: t) = (a, b) :: pairsOf (b :: t) := rfl

theorem mem_pairsOf_cons {q : Nat × Nat} {x : Nat} {xs : List Nat} :
    q ∈ pairsOf (x :: xs) ↔
      (∃ y, xs.head? = some y ∧ q = (x, y)) ∨ q ∈ pairsOf xs := by
  cases xs with
  | nil => simp [pairsOf]
  | cons y t => simp [pairsOf]

theorem mem_pairsOf_components {q : Nat × Nat} {l : List Nat}
    (h : q ∈ pairsOf l) : q.1 ∈ l ∧ q.2 ∈ l := by
  obtain ⟨a, b⟩ := q
  have h2 := List.of_mem_zip h
  exact ⟨h2.1, List.tail_subset l h2.2⟩

theorem pairsOf_ne_nil {a b : Nat} {t : List Nat} :
    pairsOf (a :: b :: t) ≠ [] := by
  simp [pairsOf]

/-! ### `min_by_key` / `max_by_key` lemmas -/

theorem foldlMin_mem {α : Type} (f : α → Nat) (l : List α) (a : α) :
    l.foldl (fun best x => if f x < f best then x else best) a = a ∨
      l.foldl (fun best x => if f x < f best then x else best) a ∈ l := by
  induction l generalizing a with
  | nil => left; rfl
  | cons x t ih =>
      simp only [List.foldl_cons]
      rcases ih (if f x < f a then x else a) with h | h
      · rw [h]
        by_cases hx : f x < f a
        · right; simp [hx]
        · left; simp [hx]
      · right; exact List.mem_cons_of_mem x h

theorem foldlMin_le {α : Type} (f : α → Nat) (l : List α) (a : α) :
    f (l.foldl (fun best x => if f x < f best then x else best) a) ≤ f a ∧
      ∀ y ∈ l, f (l.foldl (fun best x => if f x < f best then x else best) a) ≤ f y := by
  induction l generalizing a with
  | nil => exact ⟨le_refl _, by simp⟩
  | cons x t ih =>
      simp only [List.foldl_cons]
      obtain ⟨h1, h2⟩ := ih (if f x < f a then x else a)
      have hmin : f (if f x < f a then x else a) ≤ f a ∧
          f (if f x < f a then x else a) ≤ f x := by
        by_cases hx : f x < f a
        · simp only [if_pos hx]
          exact ⟨le_of_lt hx, le_refl _⟩
        · simp only [if_neg hx]
          exact ⟨le_refl _, le_of_not_lt hx⟩
      refine ⟨le_trans h1 hmin.1, ?_⟩
      intro y hy
      rcases List.mem_cons.mp hy with hxy | hyt
      · rw [hxy]; exact le_trans h1 hmin.2
      · exact h2 y hyt

theorem minByKey_mem {α : Type} {f : α → Nat} {l : List α} {x : α}
    (h : minByKey f l = some x) : x ∈ l := by
  cases l with
  | nil => simp [minByKey] at h
  | cons a t =>
      simp only [minByKey, Option.some.injEq] at h
      rcases foldlMin_mem f t a with h' | h' <;> rw [← h]
      · rw [h']; exact List.mem_cons_self a t
      · exact List.mem_cons_of_mem a h'

theorem minByKey_le {α : Type} {f : α → Nat} {l : List α} {x : α}
    (h : minByKey f l = some x) : ∀ y ∈ l, f x ≤ f y := by
  cases l with
  | nil => simp [minByKey] at h
  | cons a t =>
      simp only [minByKey, Option.some.injEq] at h
      intro y hy
      obtain ⟨h1, h2⟩ := foldlMin_le f t a
      rcases List.mem_cons.mp hy with rfl | hyt
      · rw [← h]; exact h1
      · rw [← h]; exact h2 y hyt

theorem minByKey_eq_none_iff {α : Type} {f : α → Nat} {l : List α} :
    minByKey f l = none ↔ l = [] := by
  cases l <;> simp [minByKey]

theorem foldlMax_mem {α : Type} (f : α → Nat) (l : List α) (a : α) :
    l.foldl (fun best x => if f best ≤ f x then x else best) a = a ∨
      l.foldl (fun best x => if f best ≤ f x then x else best) a ∈ l := by
  induction l generalizing a with
  | nil => left; rfl
  | cons x t ih =>
      simp only [List.foldl_cons]
      rcases ih (if f a ≤ f x then x else a) with h | h
      · rw [h]
        by_cases hx : f a ≤ f x
        · right; simp [hx]
        · left; simp [hx]
      · right; exact List.mem_cons_of_mem x h

theorem maxByKey_mem {α : Type} {f : α → Nat} {l : List α} {x : α}
    (h : maxByKey f l = some x) : x ∈ l := by
  cases l with
  | nil => simp [maxByKey] at h
  | cons a t =>
      simp only [maxByKey, Option.some.injEq] at h
      rcases foldlMax_mem f t a with h' | h' <;> rw [← h]
      · rw [h']; exact List.mem_cons_self a t
      · exact List.mem_cons_of_mem a h'

/-! ### Statistics-key lemmas -/

theorem mem_keys_bumpBy {s : List ((Nat × Nat) × Nat)} {p q : Nat × Nat} {c : Nat} :
    q ∈ (bumpBy s p c).map (fun e => e.1) ↔
      q ∈ s.map (fun e => e.1) ∨ q = p := by
  induction s with
  | nil => simp [bumpBy]
  | cons e rest ih =>
      obtain ⟨r, n⟩ := e
      by_cases h : r = p
      · subst h; simp [bumpBy]; tauto
      · simp [bumpBy, h, ih]; tauto

theorem mem_keys_foldl_bump {ps : List ((Nat × Nat) × Nat)}
    {acc : List ((Nat × Nat) × Nat)} {q : Nat × Nat} :
    q ∈ (ps.foldl (fun s e => bumpBy s e.1 e.2) acc).map (fun e => e.1) ↔
      q ∈ acc.map (fun e => e.1) ∨ q ∈ ps.map (fun e => e.1) := by
  induction ps generalizing acc with
  | nil => simp
  | cons e rest ih =>
      simp only [List.foldl_cons, ih, mem_keys_bumpBy, List.map_cons, List.mem_cons]
      tauto

theorem mem_keys_getStats {ids : List Nat} {q : Nat × Nat} :
    q ∈ (getStats ids).map (fun e => e.1) ↔ q ∈ pairsOf ids := by
  have h : ∀ acc : List ((Nat × Nat) × Nat), ∀ ps : List (Nat × Nat),
      q ∈ (ps.foldl (fun s p => bumpBy s p 1) acc).map (fun e => e.1) ↔
        q ∈ acc.map (fun e => e.1) ∨ q ∈ ps := by
    intro acc ps
    induction ps generalizing acc with
    | nil => simp
    | cons p rest ih =>
        simp only [List.foldl_cons, ih, mem_keys_bumpBy, List.mem_cons]
        tauto
  simpa using h [] (pairsOf ids)

theorem mem_keys_getStatsChunks {chunks : List (List Nat)} {q : Nat × Nat} :
    q ∈ (getStatsChunks chunks).map (fun e => e.1) ↔
      ∃ c ∈ chunks, q ∈ pairsOf c := by
  have h : ∀ acc : List ((Nat × Nat) × Nat), ∀ cs : List (List Nat),
      q ∈ (cs.foldl (fun stats c =>
          (getStats c).foldl (fun s e => bumpBy s e.1 e.2) stats) acc).map
            (fun e => e.1) ↔
        q ∈ acc.map (fun e => e.1) ∨ ∃ c ∈ cs, q ∈ pairsOf c := by
    intro acc cs
    induction cs generalizing acc with
    | nil => simp
    | cons c rest ih =>
        simp only [List.foldl_cons, ih, mem_keys_foldl_bump, mem_keys_getStats,
          List.mem_cons]
        constructor
        · rintro ((h | h) | ⟨c', hc', h⟩)
          · exact Or.inl h
          · exact Or.inr ⟨c, Or.inl rfl, h⟩
          · exact Or.inr ⟨c', Or.inr hc', h⟩
        · rintro (h | ⟨c', hc' | hc', h⟩)
          · exact Or.inl (Or.inl h)
          · subst hc'; exact Or.inl (Or.inr h)
          · exact Or.inr ⟨c', hc', h⟩
  simpa [getStatsChunks] using h [] chunks

theorem getStats_ne_nil {a b : Nat} {t : List Nat} :
    getStats (a :: b :: t) ≠ [] := by
  intro h
  have : (a, b) ∈ (getStats (a :: b :: t)).map (fun e => e.1) := by
    rw [mem_keys_getStats, pairsOf_cons₂]
    exact List.mem_cons_self _ _
  rw [h] at this
  simp at this

/-! ### `merge` lemmas -/

theorem mergeList_small {p : Nat × Nat} {idx : Nat} {l : List Nat}
    (h : ∀ a b rest, l ≠ a :: b :: rest) : mergeList p idx l = l := by
  cases l with
  | nil => simp [mergeList]
  | cons a t =>
      cases t with
      | nil => simp [mergeList]
      | cons b rest => exact absurd rfl (h a b rest)

theorem mergeList_length_le (p : Nat × Nat) (idx : Nat) (l : List Nat) :
    (mergeList p idx l).length ≤ l.length := by
  induction l using mergeList.induct p idx with
  | case1 a b rest h ih => simp only [mergeList, if_pos h]; simp; omega
  | case2 a b rest h ih => simp only [mergeList, if_neg h]; simp at ih ⊢; omega
  | case3 l h => rw [mergeList_small h]

theorem mergeList_length_lt {p : Nat × Nat} {idx : Nat} {l : List Nat}
    (hp : p ∈ pairsOf l) : (mergeList p idx l).length < l.length := by
  induction l using mergeList.induct p idx with
  | case1 a b rest h ih =>
      have := mergeList_length_le p idx rest
      simp only [mergeList, if_pos h]
      simp; omega
  | case2 a b rest h ih =>
      have hab : ¬ (p = (a, b)) := by
        intro hh
        exact h ⟨(congrArg Prod.fst hh).symm, (congrArg Prod.snd hh).symm⟩
      rw [pairsOf_cons₂] at hp
      rcases List.mem_cons.mp hp with h' | h'
      · exact absurd h' hab
      · have := ih h'
        simp only [mergeList, if_neg h]
        simp at this ⊢; omega
  | case3 l h =>
      exfalso
      cases l with
      | nil => simp [pairsOf] at hp
      | cons a t =>
          cases t with
          | nil => simp [pairsOf] at hp
          | cons b rest => exact absurd rfl (h a b rest)

theorem mergeList_mem {p : Nat × Nat} {idx : Nat} {l : List Nat} {s : Nat}
    (hs : s ∈ mergeList p idx l) : s ∈ l ∨ s = idx := by
  induction l using mergeList.induct p idx with
  | case1 a b rest h ih =>
      simp only [mergeList, if_pos h] at hs
      rcases List.mem_cons.mp hs with h' | h'
      · exact Or.inr h'
      · rcases ih h' with h'' | h''
        · exact Or.inl (by simp [h''])
        · exact Or.inr h''
  | case2 a b rest h ih =>
      simp only [mergeList, if_neg h] at hs
      rcases List.mem_cons.mp hs with h' | h'
      · exact Or.inl (by simp [h'])
      · rcases ih h' with h'' | h''
        · exact Or.inl (by simp [List.mem_cons.mp h''])
        · exact Or.inr h''
  | case3 l h =>
      rw [mergeList_small h] at hs
      exact Or.inl hs

theorem mergeList_head? {p : Nat × Nat} {idx : Nat} (b : Nat) (t : List Nat) :
    (mergeList p idx (b :: t)).head? = some idx ∨
      (mergeList p idx (b :: t)).head? = some b := by
  cases t with
  | nil => right; simp [mergeList]
  | cons c t' =>
      by_cases h : b = p.1 ∧ c = p.2
      · left; simp [mergeList, if_pos h]
      · right; simp [mergeList, if_neg h]

theorem pairsOf_mergeList_mem {p q : Nat × Nat} {idx : Nat} {l : List Nat}
    (hq : q ∈ pairsOf (mergeList p idx l)) :
    q ∈ pairsOf l ∨ q.1 = idx ∨ q.2 = idx := by
  induction l using mergeList.induct p idx with
  | case1 a b rest h ih =>
      simp only [mergeList, if_pos h] at hq
      rcases mem_pairsOf_cons.mp hq with ⟨y, _, rfl⟩ | h'
      · exact Or.inr (Or.inl rfl)
      · rcases ih h' with h'' | h''
        · rw [pairsOf_cons₂]
          exact Or.inl (List.mem_cons_of_mem _ (mem_pairsOf_cons.mpr (Or.inr h'')))
        · exact Or.inr h''
  | case2 a b rest h ih =>
      simp only [mergeList, if_neg h] at hq
      rcases mem_pairsOf_cons.mp hq with ⟨y, hy, rfl⟩ | h'
      · rcases mergeList_head? b rest with hh | hh
        · rw [hy] at hh
          injection hh with hh
          refine Or.inr (Or.inr ?_)
          show y = idx
          omega
        · rw [hy] at hh
          injection hh with hh
          refine Or.inl ?_
          rw [pairsOf_cons₂]
          have : ((a : Nat), y) = (a, b) := by rw [hh]
          rw [this]
          exact List.mem_cons_self _ _
      · rcases ih h' with h'' | h''
        · rw [pairsOf_cons₂]
          exact Or.inl (List.mem_cons_of_mem _ h'')
        · exact Or.inr h''
  | case3 l h =>
      rw [mergeList_small h] at hq
      exact Or.inl hq

theorem not_mem_pairsOf_mergeList {p : Nat × Nat} {idx : Nat} {l : List Nat}
    (h1 : idx ≠ p.1) (h2 : idx ≠ p.2) : p ∉ pairsOf (mergeList p idx l) := by
  induction l using mergeList.induct p idx with
  | case1 a b rest h ih =>
      simp only [mergeList, if_pos h]
      intro hp
      rcases mem_pairsOf_cons.mp hp with ⟨y, _, hy⟩ | h'
      · exact h1 (congrArg Prod.fst hy).symm
      · exact ih h'
  | case2 a b rest h ih =>
      simp only [mergeList, if_neg h]
      intro hp
      rcases mem_pairsOf_cons.mp hp with ⟨y, hy, hpy⟩ | h'
      · rcases mergeList_head? b rest with hh | hh
        · rw [hy] at hh
          injection hh with hh
          apply h2
          rw [hpy]
          exact hh.symm
        · rw [hy] at hh
          injection hh with hh
          apply h
          constructor
          · exact (congrArg Prod.fst hpy).symm
          · rw [hpy]
            exact hh.symm
      · exact ih h'
  | case3 l h =>
      rw [mergeList_small h]
      intro hp
      cases l with
      | nil => simp [pairsOf] at hp
      | cons a t =>
          cases t with
          | nil => simp [pairsOf] at hp
          | cons b rest => exact absurd rfl (h a b rest)

/-! ### Decoding lemmas -/

theorem decM_nil (st : Tokenizer) : decM st [] = [] := rfl

theorem decM_cons (st : Tokenizer) (a : Nat) (l : List Nat) :
    decM st (a :: l) = vget st a ++ decM st l := by
  simp [decM]

theorem decM_append (st : Tokenizer) (l1 l2 : List Nat) :
    decM st (l1 ++ l2) = decM st l1 ++ decM st l2 := by
  simp [decM]

theorem decodeBytes_eq_decM (st : Tokenizer) (ids : List Nat) :
    decodeBytes st ids = decM st ids := by
  induction ids with
  | nil => rfl
  | cons a l ih =>
      cases h : alookup st.vocab a with
      | none => simp [decodeBytes, decM, List.filterMap_cons, h, vget] at ih ⊢; exact ih
      | some t => simp [decodeBytes, decM, List.filterMap_cons, h, vget] at ih ⊢; exact ih

theorem decM_mergeList {st : Tokenizer} {p : Nat × Nat} {idx : Nat}
    (hd : vget st idx = vget st p.1 ++ vget st p.2) (l : List Nat) :
    decM st (mergeList p idx l) = decM st l := by
  induction l using mergeList.induct p idx with
  | case1 a b rest h ih =>
      simp only [mergeList, if_pos h, decM_cons, ih, hd]
      rw [h.1, h.2, List.append_assoc]
  | case2 a b rest h ih =>
      simp only [mergeList, if_neg h, decM_cons, ih]
  | case3 l h => rw [mergeList_small h]

theorem decM_bytes {st : Tokenizer} {bs : List Nat}
    (hv : ∀ b, b < 256 → alookup st.vocab b = some [b])
    (hb : ∀ b ∈ bs, b < 256) : decM st bs = bs := by
  induction bs with
  | nil => rfl
  | cons b l ih =>
      rw [decM_cons]
      have h1 : vget st b = [b] := by
        simp [vget, hv b (hb b (List.mem_cons_self _ _))]
      rw [h1, ih (fun x hx => hb x (List.mem_cons_of_mem _ hx))]
      rfl

/-! ### Encoding-loop lemmas -/

theorem encodeStep_some_inv {m : List ((Nat × Nat) × Nat)} {ids ids2 : List Nat}
    (h : encodeStep m ids = some ids2) :
    ∃ p idx, alookup m p = some idx ∧ p ∈ pairsOf ids ∧
      ids2 = mergeList p idx ids ∧
      ∀ q ∈ pairsOf ids, ∀ j, alookup m q = some j → idx ≤ j := by
  unfold encodeStep at h
  cases hmin : minByKey (fun e => (alookup m e.1).getD UMAX) (getStats ids) with
  | none => rw [hmin] at h; simp at h
  | some e =>
      rw [hmin] at h
      cases hl : alookup m e.1 with
      | none => simp [hl] at h
      | some idx =>
          simp only [hl] at h
          refine ⟨e.1, idx, hl, ?_, ?_, ?_⟩
          · exact mem_keys_getStats.mp (List.mem_map_of_mem _ (minByKey_mem hmin))
          · simp at h
            exact h.symm
          · intro q hq j hj
            obtain ⟨e', he', he'q⟩ :=
              List.mem_map.mp (mem_keys_getStats.mpr hq)
            have hle := minByKey_le hmin e' he'
            rw [he'q, hj, hl] at hle
            simpa using hle

theorem encodeStep_none_inv {m : List ((Nat × Nat) × Nat)} {ids : List Nat}
    (h : encodeStep m ids = none) (hlen : 2 ≤ ids.length)
    (hm : ∀ p i, alookup m p = some i → i < UMAX) :
    ∀ q ∈ pairsOf ids, alookup m q = none := by
  obtain ⟨a, b, t', rfl⟩ : ∃ a b t', ids = a :: b :: t' := by
    cases ids with
    | nil => simp at hlen
    | cons a t =>
        cases t with
        | nil => simp at hlen
        | cons b t' => exact ⟨a, b, t', rfl⟩
  unfold encodeStep at h
  cases hmin : minByKey (fun e => (alookup m e.1).getD UMAX) (getStats (a :: b :: t')) with
  | none => exact absurd (minByKey_eq_none_iff.mp hmin) getStats_ne_nil
  | some e =>
      rw [hmin] at h
      cases hl : alookup m e.1 with
      | some idx => simp [hl] at h
      | none =>
          intro q hq
          cases hlq : alookup m q with
          | none => rfl
          | some j =>
              exfalso
              obtain ⟨e', he', he'q⟩ :=
                List.mem_map.mp (mem_keys_getStats.mpr hq)
              have hle := minByKey_le hmin e' he'
              rw [he'q, hlq, hl] at hle
              have hj := hm q j hlq
              simp at hle
              omega

theorem encodeStep_length {m : List ((Nat × Nat) × Nat)} {ids ids2 : List Nat}
    (h : encodeStep m ids = some ids2) : ids2.length < ids.length := by
  obtain ⟨p, idx, _, hp, rfl, _⟩ := encodeStep_some_inv h
  exact mergeList_length_lt hp

theorem decM_encodeLoop {st : Tokenizer} {m : List ((Nat × Nat) × Nat)}
    (hW : ∀ p idx, alookup m p = some idx →
      vget st idx = vget st p.1 ++ vget st p.2) :
    ∀ fuel ids, decM st (encodeLoop m fuel ids) = decM st ids := by
  intro fuel
  induction fuel with
  | zero => intro ids; rfl
  | succ n ih =>
      intro ids
      unfold encodeLoop
      by_cases hlen : ids.length < 2
      · simp [hlen]
      · simp only [if_neg hlen]
        cases hstep : encodeStep m ids with
        | none => rfl
        | some ids2 =>
            obtain ⟨p, idx, hl, _, rfl, _⟩ := encodeStep_some_inv hstep
            rw [ih, decM_mergeList (hW p idx hl)]

theorem decM_encodeChunkGo {st : Tokenizer} {m : List ((Nat × Nat) × Nat)}
    (hW : ∀ p idx, alookup m p = some idx →
      vget st idx = vget st p.1 ++ vget st p.2) :
    ∀ fuel acc l, decM st (encodeChunkGo m fuel acc l) =
      decM st acc ++ decM st l := by
  intro fuel
  induction fuel with
  | zero => intro acc l; simp [encodeChunkGo, decM_append]
  | succ n ih =>
      intro acc l
      cases l with
      | nil => simp [encodeChunkGo, decM_append, decM_nil]
      | cons a t =>
          cases t with
          | nil => simp [encodeChunkGo, decM_append, decM_nil]
          | cons b rest =>
              cases hl : alookup m (a, b) with
              | some idx =>
                  simp only [encodeChunkGo, hl, ih]
                  congr 1
                  rw [decM_cons, decM_cons, decM_cons, hW (a, b) idx hl,
                    List.append_assoc]
              | none =>
                  simp only [encodeChunkGo, hl, ih]
                  rw [decM_append, decM_cons st b rest]
                  simp [decM_cons, decM_nil, List.append_assoc]

theorem regexEncode_foldl (m : List ((Nat × Nat) × Nat)) :
    ∀ (chunks : List (List Nat)) (init : List Nat),
      chunks.foldl (fun ids c => ids ++ encodeChunk m c) init =
        init ++ (chunks.map (encodeChunk m)).flatten := by
  intro chunks
  induction chunks with
  | nil => intro init; simp
  | cons c rest ih =>
      intro init
      simp only [List.foldl_cons, List.map_cons, List.flatten_cons, ih,
        List.append_assoc]

/-! ### Training invariants -/

theorem alookup_append {α β : Type} [DecidableEq α]
    (l1 l2 : List (α × β)) (a : α) :
    alookup (l1 ++ l2) a =
      match alookup l1 a with
      | some v => some v
      | none => alookup l2 a := by
  induction l1 with
  | nil => simp [alookup]
  | cons e rest ih =>
      obtain ⟨k, v⟩ := e
      by_cases h : k = a <;> simp [alookup, h, ih]

theorem alookup_initVocab {b : Nat} (hb : b < 256) :
    alookup initVocab b = some [b] := by
  have key : ∀ n b, b < n →
      alookup ((List.range n).map (fun k => (k, [k]))) b = some [b] := by
    intro n
    induction n with
    | zero => intro b hb; omega
    | succ n ih =>
        intro b hb
        rw [List.range_succ, List.map_append, alookup_append]
        by_cases h : b < n
        · rw [ih b h]
        · have hbn : b = n := by omega
          subst hbn
          have hnone : alookup ((List.range b).map (fun k => (k, [k]))) b = none := by
            rw [alookup_eq_none_iff]
            simp
          simp [hnone, alookup]
  exact key 256 b hb

theorem findMostFrequentPair_mem {stats : List ((Nat × Nat) × Nat)}
    {pair : Nat × Nat} (h : findMostFrequentPair stats = some pair) :
    pair ∈ stats.map (fun e => e.1) := by
  unfold findMostFrequentPair at h
  cases hmax : maxByKey (fun e => e.2) stats with
  | none => rw [hmax] at h; simp at h
  | some e =>
      rw [hmax] at h
      simp at h
      rw [← h]
      exact List.mem_map_of_mem _ (maxByKey_mem hmax)

theorem vget_trainInsert_ne {st : Tokenizer} {pair : Nat × Nat} {idx x : Nat}
    (h : x ≠ idx) : vget (trainInsert st pair idx) x = vget st x := by
  simp [vget, trainInsert, alookup_ainsert_ne _ _ _ _ h]

theorem vget_trainInsert_self (st : Tokenizer) (pair : Nat × Nat) (idx : Nat) :
    vget (trainInsert st pair idx) idx = vget st pair.1 ++ vget st pair.2 := by
  simp [vget, trainInsert, alookup_ainsert_self]

theorem trainInsert_state {i : Nat} {st : Tokenizer} {pair : Nat × Nat}
    (hv : ∀ b, b < 256 → alookup st.vocab b = some [b])
    (hm : ∀ p v, alookup st.merges p = some v →
      p.1 < 256 + i ∧ p.2 < 256 + i ∧ v < 256 + i ∧
      vget st v = vget st p.1 ++ vget st p.2)
    (hp1 : pair.1 < 256 + i) (hp2 : pair.2 < 256 + i) :
    (∀ b, b < 256 →
      alookup (trainInsert st pair (256 + i)).vocab b = some [b]) ∧
    (∀ p v, alookup (trainInsert st pair (256 + i)).merges p = some v →
      p.1 < 256 + (i + 1) ∧ p.2 < 256 + (i + 1) ∧ v < 256 + (i + 1) ∧
      vget (trainInsert st pair (256 + i)) v =
        vget (trainInsert st pair (256 + i)) p.1 ++
          vget (trainInsert st pair (256 + i)) p.2) := by
  constructor
  · intro b hb
    have hne : b ≠ 256 + i := by omega
    simp [trainInsert]
    rw [alookup_ainsert_ne _ _ _ _ hne]
    exact hv b hb
  · intro p v hpv
    by_cases hp : p = pair
    · subst hp
      have hv' : v = 256 + i := by
        have := alookup_ainsert_self st.merges p (256 + i)
        simp [trainInsert] at hpv
        rw [this] at hpv
        injection hpv
        omega
      subst hv'
      refine ⟨by omega, by omega, by omega, ?_⟩
      rw [vget_trainInsert_self]
      rw [vget_trainInsert_ne (by omega : p.1 ≠ 256 + i),
        vget_trainInsert_ne (by omega : p.2 ≠ 256 + i)]
    · have hold : alookup st.merges p = some v := by
        simp only [trainInsert] at hpv
        rwa [alookup_ainsert_ne _ _ _ _ hp] at hpv
      obtain ⟨h1, h2, h3, h4⟩ := hm p v hold
      refine ⟨by omega, by omega, by omega, ?_⟩
      rw [vget_trainInsert_ne (by omega : v ≠ 256 + i),
        vget_trainInsert_ne (by omega : p.1 ≠ 256 + i),
        vget_trainInsert_ne (by omega : p.2 ≠ 256 + i)]
      exact h4

theorem trainBasicGo_wf
    {ord : List ((Nat × Nat) × Nat) → List ((Nat × Nat) × Nat)}
    (hord : IsEnum ord) :
    ∀ fuel i ids st, TrainInvP i ids st → WfT (trainBasicGo ord fuel i ids st) := by
  intro fuel
  induction fuel with
  | zero =>
      intro i ids st hInv
      exact ⟨hInv.2.1, fun p idx h => (hInv.2.2 p idx h).2.2.2⟩
  | succ n ih =>
      intro i ids st hInv
      obtain ⟨hids, hv, hm⟩ := hInv
      unfold trainBasicGo
      cases hfind : findMostFrequentPair (ord (getStats ids)) with
      | none =>
          refine ih (i + 1) ids st ⟨fun s hs => ?_, hv, fun p v hpv => ?_⟩
          · have := hids s hs; omega
          · obtain ⟨h1, h2, h3, h4⟩ := hm p v hpv
            exact ⟨by omega, by omega, by omega, h4⟩
      | some pair =>
          have hpp : pair ∈ pairsOf ids := by
            have h1 := findMostFrequentPair_mem hfind
            obtain ⟨e, he, heq⟩ := List.mem_map.mp h1
            have he' : e ∈ getStats ids := (hord (getStats ids)).mem_iff.mp he
            rw [← heq]
            exact mem_keys_getStats.mp (List.mem_map_of_mem _ he')
          obtain ⟨hc1, hc2⟩ := mem_pairsOf_components hpp
          have hp1 : pair.1 < 256 + i := hids _ hc1
          have hp2 : pair.2 < 256 + i := hids _ hc2
          obtain ⟨hv', hm'⟩ := trainInsert_state hv hm hp1 hp2
          refine ih (i + 1) _ _ ⟨fun s hs => ?_, hv', hm'⟩
          rcases mergeList_mem hs with h' | h'
          · have := hids s h'; omega
          · omega

theorem trainRegexGo_wf
    {ord : List ((Nat × Nat) × Nat) → List ((Nat × Nat) × Nat)}
    (hord : IsEnum ord) :
    ∀ fuel i idss st, TrainInvR i idss st →
      WfT (trainRegexGo ord fuel i idss st) := by
  intro fuel
  induction fuel with
  | zero =>
      intro i idss st hInv
      exact ⟨hInv.2.1, fun p idx h => (hInv.2.2 p idx h).2.2.2⟩
  | succ n ih =>
      intro i idss st hInv
      obtain ⟨hids, hv, hm⟩ := hInv
      unfold trainRegexGo
      cases hfind : findMostFrequentPair (ord (getStatsChunks idss)) with
      | none => exact ⟨hv, fun p idx h => (hm p idx h).2.2.2⟩
      | some pair =>
          have hpp : ∃ c ∈ idss, pair ∈ pairsOf c := by
            have h1 := findMostFrequentPair_mem hfind
            obtain ⟨e, he, heq⟩ := List.mem_map.mp h1
            have he' : e ∈ getStatsChunks idss :=
              (hord (getStatsChunks idss)).mem_iff.mp he
            rw [← heq]
            exact mem_keys_getStatsChunks.mp (List.mem_map_of_mem _ he')
          obtain ⟨c, hc, hpc⟩ := hpp
          obtain ⟨hc1, hc2⟩ := mem_pairsOf_components hpc
          have hp1 : pair.1 < 256 + i := hids c hc _ hc1
          have hp2 : pair.2 < 256 + i := hids c hc _ hc2
          obtain ⟨hv', hm'⟩ := trainInsert_state hv hm hp1 hp2
          refine ih (i + 1) _ _ ⟨fun c' hc' s hs => ?_, hv', hm'⟩
          obtain ⟨c0, hc0, rfl⟩ := List.mem_map.mp hc'
          rcases mergeList_mem hs with h' | h'
          · have := hids c0 hc0 s h'; omega
          · omega

theorem WfT_new : WfT Tokenizer.new := by
  constructor
  · intro b hb
    exact alookup_initVocab hb
  · intro p idx h
    simp [Tokenizer.new, alookup] at h

theorem TrainInvP_start {text : List Nat} (hb : ∀ b ∈ text, b < 256) :
    TrainInvP 0 text Tokenizer.new := by
  refine ⟨fun s hs => ?_, fun b hb' => alookup_initVocab hb', fun p v hpv => ?_⟩
  · have := hb s hs; omega
  · simp [Tokenizer.new, alookup] at hpv

theorem TrainInvR_start {chunks : List (List Nat)}
    (hb : ∀ c ∈ chunks, ∀ b ∈ c, b < 256) :
    TrainInvR 0 chunks Tokenizer.new := by
  refine ⟨fun c hc s hs => ?_, fun b hb' => alookup_initVocab hb',
    fun p v hpv => ?_⟩
  · have := hb c hc s hs; omega
  · simp [Tokenizer.new, alookup] at hpv

theorem WfT_reachedOnce {st : Tokenizer} (h : ReachedOnce st) : WfT st := by
  rcases h with rfl | ⟨ord, text, V, hord, hb, hst⟩ | ⟨ord, chunks, V, hord, hb, hst⟩
  · exact WfT_new
  · rw [hst]
    exact trainBasicGo_wf hord (V - 256) 0 text Tokenizer.new (TrainInvP_start hb)
  · rw [hst]
    exact trainRegexGo_wf hord (V - 256) 0 chunks Tokenizer.new (TrainInvR_start hb)

/-! ### Claim C1 — encode/decode round-trip -/

set_option maxRecDepth 8000 in
/-- C1 (counterexample): as stated — for "any tokenizer state … produced
by training" — the round-trip claim is false, because a second `train`
call restarts ID assignment at 256 (`let idx = 256 + i` with `i` local to
the call) and overwrites `vocab[256]`.  Training first on `"aa"` and then
on `"bb"` leaves `merges = {(97,97) ↦ 256, (98,98) ↦ 256}` and
`vocab[256] = "bb"`, so encoding the valid UTF-8 text `"aa"` yields
`[256]` which decodes to `"bb"`, not `"aa"`. -/
theorem c1_counterexample :
    validUtf8 [97, 97] = true ∧
    encodeBasic (trainBasic id (trainBasic id Tokenizer.new [97, 97] 257) [98, 98] 257)
      [97, 97] = [256] ∧
    decodeT (trainBasic id (trainBasic id Tokenizer.new [97, 97] 257) [98, 98] 257)
      [256] = .text [98, 98] ∧
    DecodeOutcome.text [98, 98] ≠ DecodeOutcome.text [97, 97] := by
  decide

/-- C1 (amended): for every text (a UTF-8 byte sequence) and every
tokenizer state that is untrained or produced by **one** training run on a
fresh instance (either variant, any `HashMap` enumeration order),
`decode (encode T) = T` for the basic tokenizer, and for the regex
tokenizer for every chunking of the text. -/
theorem c1_round_trip (st : Tokenizer) (bs : List Nat) (hst : ReachedOnce st)
    (hb : ∀ b ∈ bs, b < 256) (hu : validUtf8 bs = true) :
    decodeT st (encodeBasic st bs) = .text bs ∧
    ∀ chunks : List (List Nat), chunks.flatten = bs →
      decodeT st (regexEncode st.merges chunks) = .text bs := by
  obtain ⟨hv, hm⟩ := WfT_reachedOnce hst
  have hbs : decM st bs = bs := decM_bytes hv hb
  constructor
  · have h1 : decodeBytes st (encodeBasic st bs) = bs := by
      rw [decodeBytes_eq_decM, encodeBasic, decM_encodeLoop hm, hbs]
    simp [decodeT, h1, hu]
  · intro chunks hch
    have hflat : ∀ cs : List (List Nat),
        decM st ((cs.map (encodeChunk st.merges)).flatten) =
          decM st cs.flatten := by
      intro cs
      induction cs with
      | nil => rfl
      | cons c rest ih =>
          simp only [List.map_cons, List.flatten_cons, decM_append, ih]
          congr 1
          have h2 := decM_encodeChunkGo hm c.length [] c
          simpa [encodeChunk, decM_nil] using h2
    have h1 : decodeBytes st (regexEncode st.merges chunks) = bs := by
      rw [decodeBytes_eq_decM, regexEncode, regexEncode_foldl]
      simp only [List.nil_append]
      rw [hflat, hch, hbs]
    simp [decodeT, h1, hu]

set_option maxRecDepth 8000 in
/-- C1 (witness): the amended round trip at a concrete singly-trained
state and concrete text, for both variants. -/
theorem c1_round_trip_witness :
    decodeT (trainBasic id Tokenizer.new [97, 97, 97, 98] 258)
        (encodeBasic (trainBasic id Tokenizer.new [97, 97, 97, 98] 258)
          [97, 97, 98]) = .text [97, 97, 98] ∧
    decodeT (trainBasic id Tokenizer.new [97, 97, 97, 98] 258)
        (regexEncode (trainBasic id Tokenizer.new [97, 97, 97, 98] 258).merges
          [[97, 97], [98]]) = .text [97, 97, 98] := by
  have h := c1_round_trip (trainBasic id Tokenizer.new [97, 97, 97, 98] 258)
    [97, 97, 98]
    (Or.inr (Or.inl ⟨id, [97, 97, 97, 98], 258, fun l => List.Perm.refl l,
      by decide, rfl⟩))
    (by decide) (by decide)
  exact ⟨h.1, h.2 [[97, 97], [98]] (by decide)⟩

/-! ### Claim C4 — regex-mode chunk encoding -/

/-- C4 (counterexample): `encode_chunk` is not the chunk-local
priority-merge procedure the claim describes.  With the merge table
`{(98,99) ↦ 256, (97,98) ↦ 257}` on chunk bytes `[97,98,99]`, the
priority procedure applies the smallest-ID merge `(98,99) ↦ 256` and
yields `[97,256]`, while the source's single left-to-right scan merges
`(97,98) ↦ 257` at position 0 first and yields `[257,99]`. -/
theorem c4_counterexample :
    encodeChunk [((98, 99), 256), ((97, 98), 257)] [97, 98, 99] = [257, 99] ∧
    specPriorityEncodeChunk [((98, 99), 256), ((97, 98), 257)] [97, 98, 99] =
      [97, 256] ∧
    ([257, 99] : List Nat) ≠ [97, 256] := by
  decide

/-- C4 (amended): regex-mode encoding splits the text into chunks and
encodes each chunk with a single left-to-right scan — at each position, if
the current adjacent pair is in the merge table it is replaced by its
recorded ID and the same position is re-examined, otherwise the position
advances — and concatenates the per-chunk results in chunk order.  A chunk
none of whose adjacent pairs is in the merge table is returned
unchanged. -/
theorem c4_amended (m : List ((Nat × Nat) × Nat)) (chunks : List (List Nat)) :
    regexEncode m chunks = (chunks.map (encodeChunk m)).flatten ∧
    ∀ chunk : List Nat, (∀ q ∈ pairsOf chunk, alookup m q = none) →
      encodeChunk m chunk = chunk := by
  constructor
  · rw [regexEncode, regexEncode_foldl]
    simp
  · intro chunk hchunk
    have key : ∀ fuel acc l, (∀ q ∈ pairsOf l, alookup m q = none) →
        encodeChunkGo m fuel acc l = acc ++ l := by
      intro fuel
      induction fuel with
      | zero => intro acc l _; rfl
      | succ n ih =>
          intro acc l hnone
          cases l with
          | nil => rfl
          | cons a t =>
              cases t with
              | nil => rfl
              | cons b rest =>
                  have hab : alookup m (a, b) = none := by
                    refine hnone (a, b) ?_
                    rw [pairsOf_cons₂]
                    exact List.mem_cons_self _ _
                  have hrest : ∀ q ∈ pairsOf (b :: rest), alookup m q = none := by
                    intro q hq
                    refine hnone q ?_
                    rw [pairsOf_cons₂]
                    exact List.mem_cons_of_mem _ hq
                  simp only [encodeChunkGo, hab, ih _ _ hrest,
                    List.append_assoc, List.singleton_append]
    exact key chunk.length [] chunk hchunk

/-- C4 (witness): the amended characterization at a concrete table and
chunk list. -/
theorem c4_amended_witness :
    encodeChunk [((97, 97), 256)] [98, 99] = [98, 99] :=
  (c4_amended [((97, 97), 256)] []).2 [98, 99] (by decide)

/-! ### Claim C6 — the merge primitive -/

/-- C6: `util::merge` replaces every non-overlapping left-to-right
occurrence of the target pair by the replacement ID — a match consumes
both positions, so scanning resumes two symbols later — and in particular
`(a,a)` applied to `a,a,a` gives exactly one merged symbol followed by the
leftover `a`. -/
theorem c6_merge_contract :
    (∀ (p : Nat × Nat) (idx : Nat) (rest : List Nat),
      mergeList p idx (p.1 :: p.2 :: rest) = idx :: mergeList p idx rest) ∧
    (∀ (p : Nat × Nat) (idx a b : Nat) (rest : List Nat),
      ¬(a = p.1 ∧ b = p.2) →
      mergeList p idx (a :: b :: rest) = a :: mergeList p idx (b :: rest)) ∧
    (∀ a idx : Nat, mergeList (a, a) idx [a, a, a] = [idx, a]) := by
  refine ⟨?_, ?_, ?_⟩
  · intro p idx rest
    simp [mergeList]
  · intro p idx a b rest h
    simp [mergeList, if_neg h]
  · intro a idx
    simp [mergeList]

/-- C6 (witness): the contract at concrete inputs, including the doc
example's non-matching head step. -/
theorem c6_merge_contract_witness :
    mergeList (1, 2) 256 [3, 2, 1, 2] = 3 :: mergeList (1, 2) 256 [2, 1, 2] ∧
    mergeList (5, 5) 9 [5, 5, 5] = [9, 5] :=
  ⟨c6_merge_contract.2.1 (1, 2) 256 3 2 [1, 2] (by decide),
    c6_merge_contract.2.2 5 9⟩

/-! ### Claim C9 — decode leniency and totality -/

/-- C9: decode looks every ID up in the vocabulary, silently skipping
absent IDs (they contribute no bytes), concatenates the per-ID byte
sequences in order, and never crashes: the result is either the decoded
text or the diagnostic string produced when the bytes are not valid
UTF-8. -/
theorem c9_decode_lenient :
    (∀ (st : Tokenizer) (ids : List Nat) (i : Nat),
      alookup st.vocab i = none →
      decodeBytes st (i :: ids) = decodeBytes st ids) ∧
    (∀ (st : Tokenizer) (ids1 ids2 : List Nat),
      decodeBytes st (ids1 ++ ids2) =
        decodeBytes st ids1 ++ decodeBytes st ids2) ∧
    (∀ (st : Tokenizer) (ids : List Nat),
      decodeT st ids = .text (decodeBytes st ids) ∨
        decodeT st ids = .diagnostic "Error decoding text") := by
  refine ⟨?_, ?_, ?_⟩
  · intro st ids i h
    simp [decodeBytes, List.filterMap_cons, h]
  · intro st ids1 ids2
    rw [decodeBytes_eq_decM, decodeBytes_eq_decM, decodeBytes_eq_decM,
      decM_append]
  · intro st ids
    unfold decodeT
    by_cases h : validUtf8 (decodeBytes st ids) <;> simp [h]

set_option maxRecDepth 8000 in
/-- C9 (witness): skipping a concrete absent ID (999 is not in the fresh
vocabulary). -/
theorem c9_decode_lenient_witness :
    decodeBytes Tokenizer.new (999 :: [97]) = decodeBytes Tokenizer.new [97] :=
  c9_decode_lenient.1 Tokenizer.new [97] 999 (by decide)

/-! ### Claim C2 — persistence round-trip -/

set_option maxRecDepth 8000 in
/-- C2 (code bug): `save` iterates `&self.merges` — an unordered
`HashMap` — so the merge lines of the `.model` file appear in an arbitrary
enumeration order and the recorded IDs are discarded; `load` then
reassigns IDs 256, 257, … in file order.  For the trained table
`{(97,97) ↦ 256, (97,98) ↦ 257}`, the legal enumeration that lists
`(97,98)` first produces a file whose reload maps `(97,97)` to 257
instead of 256: the reloaded table does not equal the original. -/
theorem c2_save_load_not_roundtrip :
    loadMerges (saveModelPairs [((97, 98), 257), ((97, 97), 256)]) =
      [((97, 98), 256), ((97, 97), 257)] ∧
    alookup (loadMerges (saveModelPairs [((97, 98), 257), ((97, 97), 256)]))
      (97, 97) = some 257 ∧
    alookup [((97, 97), 256), ((97, 98), 257)] (97, 97) = some 256 := by
  decide

/-! ### Claim C3 — vocabulary rebuild order -/

set_option maxRecDepth 8000 in
/-- C3 (code bug): `build_vocab` iterates `self.merges.keys()` — an
unordered `HashMap` — ignores the stored IDs, assigns `next_idx`
sequentially, and silently skips entries whose operands are not yet
present.  Two legal enumeration orders of the same merge table
`{(97,97) ↦ 256, (256,98) ↦ 257}` therefore produce different
vocabularies: in learned order ID 257 maps to `"aab"`, while in the
reversed order the `(256,98)` entry is skipped and ID 257 is absent. -/
theorem c3_build_vocab_order_dependent :
    buildVocab [(256, 98), (97, 97)] ≠ buildVocab [(97, 97), (256, 98)] ∧
    alookup (buildVocab [(97, 97), (256, 98)]) 257 = some [97, 97, 98] ∧
    alookup (buildVocab [(256, 98), (97, 97)]) 257 = none ∧
    alookup (buildVocab [(256, 98), (97, 97)]) 256 = some [97, 97] := by
  decide

/-! ### Claim C7 — training determinism -/

/-- C7: with the tie-break policy — the `HashMap` statistics enumeration
order, modelled as the explicit `ord` argument — held identical, training
twice on identical input text with identical target vocabulary size yields
an identical merge table and an identical vocabulary, for both
variants. -/
theorem c7_train_deterministic
    (ord1 ord2 : List ((Nat × Nat) × Nat) → List ((Nat × Nat) × Nat))
    (t1 t2 : List Nat) (cs1 cs2 : List (List Nat)) (V1 V2 : Nat)
    (hord : ord1 = ord2) (ht : t1 = t2) (hc : cs1 = cs2) (hV : V1 = V2) :
    (trainBasic ord1 Tokenizer.new t1 V1).merges =
        (trainBasic ord2 Tokenizer.new t2 V2).merges ∧
    (trainBasic ord1 Tokenizer.new t1 V1).vocab =
        (trainBasic ord2 Tokenizer.new t2 V2).vocab ∧
    (trainRegex ord1 Tokenizer.new cs1 V1).merges =
        (trainRegex ord2 Tokenizer.new cs2 V2).merges ∧
    (trainRegex ord1 Tokenizer.new cs1 V1).vocab =
        (trainRegex ord2 Tokenizer.new cs2 V2).vocab := by
  subst hord; subst ht; subst hc; subst hV
  exact ⟨rfl, rfl, rfl, rfl⟩

/-- C7 (witness): determinism at a concrete training input. -/
theorem c7_train_deterministic_witness :
    (trainBasic id Tokenizer.new [97, 97] 257).merges =
        (trainBasic id Tokenizer.new [97, 97] 257).merges ∧
    (trainBasic id Tokenizer.new [97, 97] 257).vocab =
        (trainBasic id Tokenizer.new [97, 97] 257).vocab ∧
    (trainRegex id Tokenizer.new [[97, 97]] 257).merges =
        (trainRegex id Tokenizer.new [[97, 97]] 257).merges ∧
    (trainRegex id Tokenizer.new [[97, 97]] 257).vocab =
        (trainRegex id Tokenizer.new [[97, 97]] 257).vocab :=
  c7_train_deterministic id id [97, 97] [97, 97] [[97, 97]] [[97, 97]]
    257 257 rfl rfl rfl rfl

/-! ### Claim C5 — basic-mode encode priority -/

/-- C5: each iteration of `Tokenizer::encode` selects, among the adjacent
pairs present in the statistics, one that is in the merge table with the
smallest assigned merge ID and applies that merge with its recorded ID;
when no present pair is in the merge table (all keys are the
`u32::MAX` sentinel) the loop stops and returns the current sequence. -/
theorem c5_encode_priority (m : List ((Nat × Nat) × Nat)) (ids : List Nat)
    (hm : ∀ p i, alookup m p = some i → i < UMAX) (hlen : 2 ≤ ids.length) :
    (∀ ids2, encodeStep m ids = some ids2 →
      ∃ p idx, alookup m p = some idx ∧ p ∈ pairsOf ids ∧
        ids2 = mergeList p idx ids ∧
        ∀ q ∈ pairsOf ids, ∀ j, alookup m q = some j → idx ≤ j) ∧
    (encodeStep m ids = none → ∀ q ∈ pairsOf ids, alookup m q = none) ∧
    (∀ fuel, encodeStep m ids = none → encodeLoop m (fuel + 1) ids = ids) := by
  refine ⟨fun ids2 h => encodeStep_some_inv h,
    fun h => encodeStep_none_inv h hlen hm, ?_⟩
  intro fuel h
  unfold encodeLoop
  by_cases hl : ids.length < 2
  · simp [hl]
  · simp [hl, h]

/-- C5 (witness): with an empty merge table the loop stops at once and
returns the byte sequence unchanged. -/
theorem c5_encode_priority_witness :
    encodeLoop ([] : List ((Nat × Nat) × Nat)) 1 [97, 98, 99] = [97, 98, 99] :=
  (c5_encode_priority [] [97, 98, 99]
    (fun p i h => absurd h (by simp [alookup])) (by decide)).2.2 0 (by decide)

/-! ### Claim C10 — basic-mode encode terminates -/

theorem encodeLoop_short {m : List ((Nat × Nat) × Nat)} {ids : List Nat}
    (h : ids.length < 2) : ∀ fuel, encodeLoop m fuel ids = ids := by
  intro fuel
  cases fuel with
  | zero => rfl
  | succ n => simp [encodeLoop, h]

theorem encodeLoop_fuel_aux (m : List ((Nat × Nat) × Nat)) :
    ∀ n (ids : List Nat) (fuel : Nat), ids.length ≤ n → ids.length ≤ fuel →
      encodeLoop m fuel ids = encodeLoop m ids.length ids := by
  intro n
  induction n with
  | zero =>
      intro ids fuel hn _
      have h0 : ids.length = 0 := by omega
      rw [h0, encodeLoop_short (by omega), encodeLoop_short (by omega)]
  | succ n ih =>
      intro ids fuel hn hfuel
      by_cases hlen : ids.length < 2
      · rw [encodeLoop_short hlen, encodeLoop_short hlen]
      · obtain ⟨f, rfl⟩ : ∃ f, fuel = f + 1 := by
          cases fuel with
          | zero => omega
          | succ f => exact ⟨f, rfl⟩
        obtain ⟨L, hL⟩ : ∃ L, ids.length = L + 1 := by
          cases h : ids.length with
          | zero => omega
          | succ L => exact ⟨L, rfl⟩
        rw [hL]
        simp only [encodeLoop, if_neg hlen]
        cases hstep : encodeStep m ids with
        | none => rfl
        | some ids2 =>
            have hlt : ids2.length < ids.length := encodeStep_length hstep
            show encodeLoop m f ids2 = encodeLoop m L ids2
            rw [ih ids2 f (by omega) (by omega), ih ids2 L (by omega) (by omega)]

/-- C10: basic-mode encode always terminates — every applied merge is a
pair occurring in the current sequence, so the sequence strictly shortens;
fuel equal to the input length therefore already reaches the loop's exit
(a sequence shorter than 2 symbols, or no present pair in the merge
table), and any larger fuel computes the same result as
`Tokenizer::encode`. -/
theorem c10_encode_terminates (st : Tokenizer) (text : List Nat) (fuel : Nat)
    (h : text.length ≤ fuel) :
    encodeLoop st.merges fuel text = encodeBasic st text :=
  encodeLoop_fuel_aux st.merges text.length text fuel (le_refl _) h

/-- C10 (witness): extra fuel does not change the result at a concrete
input. -/
theorem c10_encode_terminates_witness :
    encodeLoop Tokenizer.new.merges 7 [97, 98] =
      encodeBasic Tokenizer.new [97, 98] :=
  c10_encode_terminates Tokenizer.new [97, 98] 7 (by decide)

/-! ### Run-invariant lemmas for the ID-assignment schema -/

theorem mem_keys_alookup {α β : Type} [DecidableEq α] {l : List (α × β)} {a : α}
    (h : a ∈ l.map (fun e => e.1)) : ∃ v, alookup l a = some v := by
  cases hl : alookup l a with
  | some v => exact ⟨v, rfl⟩
  | none => exact absurd h ((alookup_eq_none_iff l a).mp hl)

theorem alookup_value_mem {α β : Type} [DecidableEq α] {l : List (α × β)}
    {a : α} {v : β} (h : alookup l a = some v) : v ∈ l.map (fun e => e.2) := by
  induction l with
  | nil => simp [alookup] at h
  | cons e rest ih =>
      obtain ⟨k, w⟩ := e
      by_cases hk : k = a
      · simp [alookup, hk] at h
        simp [h]
      · simp [alookup, hk] at h
        simp [ih h]

theorem trainBasicGo_none_fix
    {ord : List ((Nat × Nat) × Nat) → List ((Nat × Nat) × Nat)}
    {ids : List Nat}
    (hfind : findMostFrequentPair (ord (getStats ids)) = none) :
    ∀ fuel i st, trainBasicGo ord fuel i ids st = st := by
  intro fuel
  induction fuel with
  | zero => intro i st; rfl
  | succ n ih =>
      intro i st
      unfold trainBasicGo
      rw [hfind]
      exact ih (i + 1) st

theorem RunInvP_step
    {ord : List ((Nat × Nat) × Nat) → List ((Nat × Nat) × Nat)}
    (hord : IsEnum ord) {i : Nat} {ids : List Nat} {st : Tokenizer}
    {pair : Nat × Nat} (hInv : RunInvP i ids st)
    (hfind : findMostFrequentPair (ord (getStats ids)) = some pair) :
    RunInvP (i + 1) (mergeList pair (256 + i) ids)
      (trainInsert st pair (256 + i)) := by
  obtain ⟨hids, hkb, hadj, hvals, hlenm⟩ := hInv
  have hpp : pair ∈ pairsOf ids := by
    have h1 := findMostFrequentPair_mem hfind
    obtain ⟨e, he, heq⟩ := List.mem_map.mp h1
    have he' : e ∈ getStats ids := (hord (getStats ids)).mem_iff.mp he
    rw [← heq]
    exact mem_keys_getStats.mp (List.mem_map_of_mem _ he')
  obtain ⟨hc1, hc2⟩ := mem_pairsOf_components hpp
  have hp1 : pair.1 < 256 + i := hids _ hc1
  have hp2 : pair.2 < 256 + i := hids _ hc2
  have hnew : pair ∉ st.merges.map (fun e => e.1) := by
    intro hmem
    exact hadj pair hmem hpp
  have hnone : alookup st.merges pair = none :=
    (alookup_eq_none_iff _ _).mpr hnew
  have happ : (trainInsert st pair (256 + i)).merges =
      st.merges ++ [(pair, 256 + i)] := by
    simp [trainInsert, ainsert_of_none _ _ _ hnone]
  refine ⟨?_, ?_, ?_, ?_, ?_⟩
  · intro s hs
    rcases mergeList_mem hs with h' | h'
    · have := hids s h'; omega
    · omega
  · intro p v hpv
    rw [happ, alookup_append] at hpv
    cases hl : alookup st.merges p with
    | some w =>
        rw [hl] at hpv
        injection hpv with hw
        obtain ⟨h1, h2⟩ := hkb p w hl
        omega
    | none =>
        rw [hl] at hpv
        simp [alookup] at hpv
        obtain ⟨hp, _⟩ := hpv
        rw [hp] at hp1 hp2
        omega
  · intro q hq
    rw [happ, List.map_append] at hq
    rcases List.mem_append.mp hq with hq' | hq'
    · intro hmem
      rcases pairsOf_mergeList_mem hmem with h' | h' | h'
      · exact hadj q hq' h'
      · obtain ⟨v, hv⟩ := mem_keys_alookup hq'
        have := (hkb q v hv).1
        omega
      · obtain ⟨v, hv⟩ := mem_keys_alookup hq'
        have := (hkb q v hv).2
        omega
    · simp at hq'
      rw [hq']
      exact not_mem_pairsOf_mergeList (by omega) (by omega)
  · have hlen2 : (st.merges ++ [(pair, 256 + i)]).length = i + 1 := by
      simp [hlenm]
    rw [happ, hlen2, List.map_append, hvals, hlenm]
    have hr : List.range' 256 (i + 1) = List.range' 256 i ++ [256 + i] := by
      simpa using @List.range'_concat 1 256 i
    rw [hr]
    simp
  · rw [happ]
    simp [hlenm]

theorem trainBasicGo_run
    {ord : List ((Nat × Nat) × Nat) → List ((Nat × Nat) × Nat)}
    (hord : IsEnum ord) :
    ∀ fuel i ids st, RunInvP i ids st →
      (trainBasicGo ord fuel i ids st).merges.map (fun e => e.2) =
        List.range' 256 (trainBasicGo ord fuel i ids st).merges.length := by
  intro fuel
  induction fuel with
  | zero =>
      intro i ids st hInv
      exact hInv.2.2.2.1
  | succ n ih =>
      intro i ids st hInv
      unfold trainBasicGo
      cases hfind : findMostFrequentPair (ord (getStats ids)) with
      | none =>
          rw [trainBasicGo_none_fix hfind]
          exact hInv.2.2.2.1
      | some pair =>
          exact ih (i + 1) _ _ (RunInvP_step hord hInv hfind)

theorem RunInvR_step
    {ord : List ((Nat × Nat) × Nat) → List ((Nat × Nat) × Nat)}
    (hord : IsEnum ord) {i : Nat} {idss : List (List Nat)} {st : Tokenizer}
    {pair : Nat × Nat} (hInv : RunInvR i idss st)
    (hfind : findMostFrequentPair (ord (getStatsChunks idss)) = some pair) :
    RunInvR (i + 1) (idss.map (fun c => mergeList pair (256 + i) c))
      (trainInsert st pair (256 + i)) := by
  obtain ⟨hids, hkb, hadj, hvals, hlenm⟩ := hInv
  have hpp : ∃ c ∈ idss, pair ∈ pairsOf c := by
    have h1 := findMostFrequentPair_mem hfind
    obtain ⟨e, he, heq⟩ := List.mem_map.mp h1
    have he' : e ∈ getStatsChunks idss :=
      (hord (getStatsChunks idss)).mem_iff.mp he
    rw [← heq]
    exact mem_keys_getStatsChunks.mp (List.mem_map_of_mem _ he')
  obtain ⟨c, hc, hpc⟩ := hpp
  obtain ⟨hc1, hc2⟩ := mem_pairsOf_components hpc
  have hp1 : pair.1 < 256 + i := hids c hc _ hc1
  have hp2 : pair.2 < 256 + i := hids c hc _ hc2
  have hnew : pair ∉ st.merges.map (fun e => e.1) := by
    intro hmem
    exact hadj pair hmem c hc hpc
  have hnone : alookup st.merges pair = none :=
    (alookup_eq_none_iff _ _).mpr hnew
  have happ : (trainInsert st pair (256 + i)).merges =
      st.merges ++ [(pair, 256 + i)] := by
    simp [trainInsert, ainsert_of_none _ _ _ hnone]
  refine ⟨?_, ?_, ?_, ?_, ?_⟩
  · intro c' hc' s hs
    obtain ⟨c0, hc0, rfl⟩ := List.mem_map.mp hc'
    rcases mergeList_mem hs with h' | h'
    · have := hids c0 hc0 s h'; omega
    · omega
  · intro p v hpv
    rw [happ, alookup_append] at hpv
    cases hl : alookup st.merges p with
    | some w =>
        rw [hl] at hpv
        injection hpv with hw
        obtain ⟨h1, h2⟩ := hkb p w hl
        omega
    | none =>
        rw [hl] at hpv
        simp [alookup] at hpv
        obtain ⟨hp, _⟩ := hpv
        rw [hp] at hp1 hp2
        omega
  · intro q hq c' hc'
    obtain ⟨c0, hc0, rfl⟩ := List.mem_map.mp hc'
    rw [happ, List.map_append] at hq
    rcases List.mem_append.mp hq with hq' | hq'
    · intro hmem
      rcases pairsOf_mergeList_mem hmem with h' | h' | h'
      · exact hadj q hq' c0 hc0 h'
      · obtain ⟨v, hv⟩ := mem_keys_alookup hq'
        have := (hkb q v hv).1
        omega
      · obtain ⟨v, hv⟩ := mem_keys_alookup hq'
        have := (hkb q v hv).2
        omega
    · simp at hq'
      rw [hq']
      exact not_mem_pairsOf_mergeList (by omega) (by omega)
  · have hlen2 : (st.merges ++ [(pair, 256 + i)]).length = i + 1 := by
      simp [hlenm]
    rw [happ, hlen2, List.map_append, hvals, hlenm]
    have hr : List.range' 256 (i + 1) = List.range' 256 i ++ [256 + i] := by
      simpa using @List.range'_concat 1 256 i
    rw [hr]
    simp
  · rw [happ]
    simp [hlenm]

theorem trainRegexGo_run
    {ord : List ((Nat × Nat) × Nat) → List ((Nat × Nat) × Nat)}
    (hord : IsEnum ord) :
    ∀ fuel i idss st, RunInvR i idss st →
      (trainRegexGo ord fuel i idss st).merges.map (fun e => e.2) =
        List.range' 256 (trainRegexGo ord fuel i idss st).merges.length := by
  intro fuel
  induction fuel with
  | zero =>
      intro i idss st hInv
      exact hInv.2.2.2.1
  | succ n ih =>
      intro i idss st hInv
      unfold trainRegexGo
      cases hfind : findMostFrequentPair (ord (getStatsChunks idss)) with
      | none => exact hInv.2.2.2.1
      | some pair =>
          exact ih (i + 1) _ _ (RunInvR_step hord hInv hfind)

theorem RunInvP_start (text : List Nat) (hb : ∀ b ∈ text, b < 256) :
    RunInvP 0 text Tokenizer.new := by
  refine ⟨fun s hs => ?_, fun p v hpv => ?_, fun q hq => ?_, rfl, rfl⟩
  · have := hb s hs; omega
  · simp [Tokenizer.new, alookup] at hpv
  · simp [Tokenizer.new] at hq

theorem RunInvR_start (chunks : List (List Nat))
    (hb : ∀ c ∈ chunks, ∀ b ∈ c, b < 256) :
    RunInvR 0 chunks Tokenizer.new := by
  refine ⟨fun c hc s hs => ?_, fun p v hpv => ?_, fun q hq => ?_, rfl, rfl⟩
  · have := hb c hc s hs; omega
  · simp [Tokenizer.new, alookup] at hpv
  · simp [Tokenizer.new] at hq

/-! ### Claim C8 — monotonic ID assignment -/

set_option maxRecDepth 8000 in
/-- C8 (counterexample): across multiple `train` calls on one instance the
claim is false, because `let idx = 256 + i` restarts at 256 in every call.
Training a fresh instance on `"aa"` assigns `(97,97) ↦ 256`; a second
`train` call on `"bb"` then introduces `(98,98) ↦ 256`, an ID not
strictly greater than the previously assigned 256 — the value list of the
resulting table is `[256, 256]`. -/
theorem c8_counterexample :
    alookup (trainBasic id Tokenizer.new [97, 97] 257).merges (97, 97) =
      some 256 ∧
    alookup (trainBasic id Tokenizer.new [97, 97] 257).merges (98, 98) =
      none ∧
    alookup (trainBasic id (trainBasic id Tokenizer.new [97, 97] 257)
      [98, 98] 257).merges (98, 98) = some 256 ∧
    (trainBasic id (trainBasic id Tokenizer.new [97, 97] 257)
      [98, 98] 257).merges.map (fun e => e.2) = [256, 256] := by
  decide

/-- C8 (amended): within a **single** training run on a fresh instance
(either variant, any `HashMap` enumeration order), the recorded merge IDs
are exactly `256, 257, …` in learned order — i.e. every introduced ID is
`256 + k` for its 0-based sequential index `k`, is strictly greater than
255, and is strictly greater than every ID assigned earlier in the
run. -/
theorem c8_monotonic_ids
    (ord : List ((Nat × Nat) × Nat) → List ((Nat × Nat) × Nat))
    (hord : IsEnum ord) (t : List Nat) (cs : List (List Nat)) (V : Nat)
    (hbt : ∀ b ∈ t, b < 256) (hbc : ∀ c ∈ cs, ∀ b ∈ c, b < 256) :
    (trainBasic ord Tokenizer.new t V).merges.map (fun e => e.2) =
      List.range' 256 (trainBasic ord Tokenizer.new t V).merges.length ∧
    (∀ p v, alookup (trainBasic ord Tokenizer.new t V).merges p = some v →
      255 < v) ∧
    (trainRegex ord Tokenizer.new cs V).merges.map (fun e => e.2) =
      List.range' 256 (trainRegex ord Tokenizer.new cs V).merges.length ∧
    (∀ p v, alookup (trainRegex ord Tokenizer.new cs V).merges p = some v →
      255 < v) := by
  have hb : (trainBasic ord Tokenizer.new t V).merges.map (fun e => e.2) =
      List.range' 256 (trainBasic ord Tokenizer.new t V).merges.length :=
    trainBasicGo_run hord (V - 256) 0 t Tokenizer.new (RunInvP_start t hbt)
  have hr : (trainRegex ord Tokenizer.new cs V).merges.map (fun e => e.2) =
      List.range' 256 (trainRegex ord Tokenizer.new cs V).merges.length :=
    trainRegexGo_run hord (V - 256) 0 cs Tokenizer.new (RunInvR_start cs hbc)
  refine ⟨hb, ?_, hr, ?_⟩
  · intro p v hpv
    have hmem := alookup_value_mem hpv
    rw [hb] at hmem
    have := List.mem_range'_1.mp hmem
    omega
  · intro p v hpv
    have hmem := alookup_value_mem hpv
    rw [hr] at hmem
    have := List.mem_range'_1.mp hmem
    omega

set_option maxRecDepth 8000 in
/-- C8 (witness): the amended ID schema at a concrete single training
run of each variant. -/
theorem c8_monotonic_ids_witness :
    (trainBasic id Tokenizer.new [97, 97, 98, 97, 97] 258).merges.map
        (fun e => e.2) =
      List.range' 256
        (trainBasic id Tokenizer.new [97, 97, 98, 97, 97] 258).merges.length ∧
    (trainRegex id Tokenizer.new [[97, 97], [98, 98]] 258).merges.map
        (fun e => e.2) =
      List.range' 256
        (trainRegex id Tokenizer.new [[97, 97], [98, 98]] 258).merges.length := by
  have h := c8_monotonic_ids id (fun l => List.Perm.refl l)
    [97, 97, 98, 97, 97] [[97, 97], [98, 98]] 258 (by decide) (by decide)
  exact ⟨h.1, h.2.2.1⟩

end RBE
